import Mathlib

/- Verification of the pp_dy resampling engine.

   Shallow embedding of src/python/interpolation_methods.py
   (knn_interpolation, the Resampling Kernel) and of the grid builder /
   orchestrator in src/python/knn_interpolation.py.  Reals are modelled
   by the rationals; IEEE NaN is modelled by the none value of Fl. -/

/-- A floating-point value: some q is a finite value, none models IEEE NaN.
The only division in the kernel whose divisor can be zero is the bandwidth
division, and the window condition forces its numerator to be zero exactly
when the bandwidth is zero, so only 0/0 (IEEE: NaN) can occur. -/
abbrev Fl := Option ℚ

/-- Floating-point addition; NaN propagates. -/
def fadd : Fl → Fl → Fl
  | some a, some b => some (a + b)
  | _, _ => none

/-- Floating-point subtraction; NaN propagates. -/
def fsub : Fl → Fl → Fl
  | some a, some b => some (a - b)
  | _, _ => none

/-- Floating-point multiplication; NaN propagates. -/
def fmul : Fl → Fl → Fl
  | some a, some b => some (a * b)
  | _, _ => none

/-- Floating-point division; NaN propagates.  Division by zero only occurs
in the source as 0/0 (see Fl), which IEEE evaluates to NaN, so mapping
division by zero to none is faithful on every reachable input. -/
def fdiv : Fl → Fl → Fl
  | some a, some b => if b = 0 then none else some (a / b)
  | _, _ => none

/-- The comparison total_kernel_weight > 0; a comparison with NaN is false. -/
def fgt0 : Fl → Bool
  | some a => decide (0 < a)
  | none => false

/-- An observation table: the columns in order, each a parsed numeric time
label with the per-feature values of that column; features is the row
count samples.shape[0]. -/
structure ObsTable where
  cols : List (ℚ × List ℚ)
  features : ℕ

/-- Ascending insertion of one element, helper for sortAsc. -/
def insertAsc (x : ℚ) : List ℚ → List ℚ
  | [] => [x]
  | y :: ys => if x ≤ y then x :: y :: ys else y :: insertAsc x ys

/-- Ascending sort of a list of rationals, modelling ndarray.sort(). -/
def sortAsc : List ℚ → List ℚ
  | [] => []
  | x :: xs => insertAsc x (sortAsc xs)

/-- The bandwidth of knn_interpolation: the source pops the first column
label (all_time_points.pop(0)) before building the distance list, takes
absolute distances to the query, sorts ascending and indexes at K
(b = samples_dist[K]); none models the IndexError when K is out of range
(also raised by pop(0) on a table with no columns). -/
def bandwidth (T : ObsTable) (t : ℚ) (K : ℕ) : Option ℚ :=
  (sortAsc (((T.cols.map Prod.fst).drop 1).map (fun s => |s - t|)))[K]?

/-- The bandwidth as claim C2 words it: rank K of the ascending-sorted
absolute distances from the query to EVERY column's time coordinate,
written for comparison with bandwidth (which drops the first column). -/
def bandwidthAllColumns (T : ObsTable) (t : ℚ) (K : ℕ) : Option ℚ :=
  (sortAsc ((T.cols.map Prod.fst).map (fun s => |s - t|)))[K]?

/-- The kernel weight of one column in floating arithmetic:
kernel = 0.75 * (1 - ker_norm ** 2) with ker_norm = (t - s) / b. -/
def kerW (t b s : ℚ) : Fl :=
  fmul (some (3/4)) (fsub (some 1)
    (fmul (fdiv (some (t - s)) (some b)) (fdiv (some (t - s)) (some b))))

/-- One iteration of the accumulation loop of knn_interpolation: acc.1 is
time_point_interpolated (none before the first in-window column, matching
the `is not None` / runtime type test of the source), acc.2 is
total_kernel_weight. -/
def loopStepK (t b : ℚ) (acc : Option (List Fl) × Fl) (c : ℚ × List ℚ) :
    Option (List Fl) × Fl :=
  if c.1 - b ≤ t ∧ t ≤ c.1 + b then
    (match acc.1 with
     | some a => some (List.zipWith fadd a (c.2.map (fun v => fmul (kerW t b c.1) (some v))))
     | none => some (c.2.map (fun v => fmul (kerW t b c.1) (some v))),
     fadd acc.2 (kerW t b c.1))
  else acc

/-- The accumulation loop of knn_interpolation over all columns of the
table, the first one included. -/
def knnLoop (cols : List (ℚ × List ℚ)) (t b : ℚ) : Option (List Fl) × Fl :=
  cols.foldl (loopStepK t b) (none, some 0)

/-- knn_interpolation from src/python/interpolation_methods.py: bandwidth,
accumulation loop, then the normalized weighted average when a column
contributed and the accumulated weight is positive, else np.zeros. -/
def knn_interpolation (T : ObsTable) (t : ℚ) (K : ℕ) : Option (List Fl) :=
  (bandwidth T t K).map (fun b =>
    match (knnLoop T.cols t b).1 with
    | some a => if fgt0 (knnLoop T.cols t b).2 then a.map (fun x => fdiv x ((knnLoop T.cols t b).2))
                else List.replicate T.features (some 0)
    | none => List.replicate T.features (some 0))

/-- The Epanechnikov weight 0.75 * (1 - u^2) with u = (t - s)/b. -/
def epan (t b s : ℚ) : ℚ := 3/4 * (1 - ((t - s)/b)^2)

/-- The columns whose window [s - b, s + b] contains the query. -/
def includedCols (cols : List (ℚ × List ℚ)) (t b : ℚ) : List (ℚ × List ℚ) :=
  cols.filter (fun c => decide (c.1 - b ≤ t ∧ t ≤ c.1 + b))

/-- The sum of Epanechnikov weights over the included columns. -/
def sumWeights (cols : List (ℚ × List ℚ)) (t b : ℚ) : ℚ :=
  ((includedCols cols t b).map (fun c => epan t b c.1)).sum

/-- The per-feature weighted sums, a vector of length n, over the
included columns. -/
def weightedVec (cols : List (ℚ × List ℚ)) (t b : ℚ) (n : ℕ) : List ℚ :=
  match cols with
  | [] => List.replicate n 0
  | c :: cs =>
    if c.1 - b ≤ t ∧ t ≤ c.1 + b then
      List.zipWith (fun x y => x + y) (c.2.map (fun v => epan t b c.1 * v))
        (weightedVec cs t b n)
    else weightedVec cs t b n

/-- The weighted sum at feature j over the included columns. -/
def wSumAt (cols : List (ℚ × List ℚ)) (t b : ℚ) (j : ℕ) : ℚ :=
  ((includedCols cols t b).map (fun c => epan t b c.1 * c.2.getD j 0)).sum

/-- Rational analogue of loopStepK, used to relate the kernel loop to the
weight and weighted-value sums when the bandwidth is nonzero. -/
def qStep (t b : ℚ) (acc : Option (List ℚ) × ℚ) (c : ℚ × List ℚ) :
    Option (List ℚ) × ℚ :=
  if c.1 - b ≤ t ∧ t ≤ c.1 + b then
    (match acc.1 with
     | some a => some (List.zipWith (fun x y => x + y) a
         (c.2.map (fun v => epan t b c.1 * v)))
     | none => some (c.2.map (fun v => epan t b c.1 * v)),
     acc.2 + epan t b c.1)
  else acc

/-- Python min over a nonempty list (0 for the empty list, never used). -/
def listMin : List ℚ → ℚ
  | [] => 0
  | [x] => x
  | x :: y :: ys => min x (listMin (y :: ys))

/-- Python max over a nonempty list (0 for the empty list, never used). -/
def listMax : List ℚ → ℚ
  | [] => 0
  | [x] => x
  | x :: y :: ys => max x (listMax (y :: ys))

/-- np.arange(start, stop, step) in exact arithmetic: the values
start + k*step for 0 ≤ k < ceil((stop - start)/step). -/
def arange (start stop step : ℚ) : List ℚ :=
  (List.range (⌈(stop - start)/step⌉.toNat)).map (fun k => start + (k : ℚ) * step)

/-- The target grid of src/python/knn_interpolation.py:
np.arange(start_time, end_time + new_time_interval, new_time_interval). -/
def regular_grid (times : List ℚ) (step : ℚ) : List ℚ :=
  arange (listMin times) (listMax times + step) step

/-- np.isclose with its default tolerances:
|a - b| <= atol + rtol * |b| with atol = 1e-8 and rtol = 1e-5. -/
def iscloseB (a b : ℚ) : Bool :=
  decide (|a - b| ≤ 1/100000000 + (1/100000) * |b|)

/-- Column lookup by time label: the first column carrying it.  The source
looks the column up by its label string; labels are modelled throughout by
their parsed numeric values, as the data model requires every label to
parse as a real number. -/
def tableLookup (T : ObsTable) (m : ℚ) : Option (List ℚ) :=
  (T.cols.find? (fun c => decide (c.1 = m))).map (fun c => c.2)

/-- One grid point of the orchestrator loop: reuse the first original
column within np.isclose of t verbatim, else call the kernel; acc.2
counts kernel invocations. -/
def regularizeStep (T : ObsTable) (K : ℕ)
    (acc : List (ℚ × Option (List Fl)) × ℕ) (t : ℚ) :
    List (ℚ × Option (List Fl)) × ℕ :=
  match (T.cols.map Prod.fst).find? (fun ot => iscloseB ot t) with
  | some m => (acc.1 ++ [(t, (tableLookup T m).map (fun vs => vs.map some))], acc.2)
  | none => (acc.1 ++ [(t, knn_interpolation T t K)], acc.2 + 1)

/-- The column the orchestrator produces at one grid point: the map form
of regularizeStep, used to state the per-point dispatch property. -/
def pointCol (T : ObsTable) (K : ℕ) (t : ℚ) : Option (List Fl) :=
  match (T.cols.map Prod.fst).find? (fun ot => iscloseB ot t) with
  | some m => (tableLookup T m).map (fun vs => vs.map some)
  | none => knn_interpolation T t K

/-- The orchestrator: build the grid from the observed range and fill each
grid point with a copied column or a kernel estimate; none models the
SKIPPING branch for a table with no time columns.  The second component
counts kernel invocations. -/
def regularize (T : ObsTable) (step : ℚ) (K : ℕ) :
    Option (List (ℚ × Option (List Fl)) × ℕ) :=
  match T.cols with
  | [] => none
  | _ :: _ =>
    some ((regular_grid (T.cols.map Prod.fst) step).foldl (regularizeStep T K) ([], 0))

/-- The sample table of src/python/quicky.py: two features at times
0, 3, 8 and 15. -/
def tblQuicky : ObsTable :=
  ⟨[(0, [10, 100]), (3, [15, 80]), (8, [30, 40]), (15, [50, 20])], 2⟩

/-- A table whose query time carries duplicated time columns, so that the
bandwidth degenerates to zero for K = 1. -/
def tblDupTime : ObsTable := ⟨[(9, [1]), (4, [2]), (4, [2])], 1⟩

/-- A table whose first column is the only one strictly inside the window
of a K = 0 query. -/
def tblFirstNear : ObsTable := ⟨[(4, [9]), (3, [5]), (8, [7])], 1⟩

/-- A table whose two in-window columns both sit exactly on the window
boundary for the query 5 with K = 1, so every weight is zero. -/
def tblBoundary : ObsTable := ⟨[(100, [1]), (3, [1]), (7, [1])], 1⟩

/-- Like tblBoundary with other values, used as a zero-weight witness. -/
def tblBoundaryB : ObsTable := ⟨[(100, [5]), (3, [5]), (7, [5])], 1⟩

/-- A table whose first column dominates the estimate while being excluded
from the bandwidth distance list. -/
def tblFirstOnly : ObsTable := ⟨[(5, [7]), (100, [1]), (200, [1]), (300, [1])], 1⟩

/-- A table that already sits exactly on the step-7 grid. -/
def tblOnGrid : ObsTable := ⟨[(0, [1]), (7, [2]), (14, [3])], 1⟩

/- Helper lemmas: concrete evaluations. -/

theorem eval_bw_quicky : bandwidth tblQuicky 5 2 = some 10 := by
  norm_num [bandwidth, tblQuicky, sortAsc, insertAsc]

theorem eval_bwAll_quicky : bandwidthAllColumns tblQuicky 5 2 = some 5 := by
  norm_num [bandwidthAllColumns, tblQuicky, sortAsc, insertAsc]

theorem eval_loop_quicky : knnLoop tblQuicky.cols 5 10
    = (some [some (369/10), some (2823/20)], some (393/200)) := by
  norm_num [knnLoop, loopStepK, kerW, fadd, fsub, fmul, fdiv, tblQuicky]

theorem eval_knn_quicky :
    knn_interpolation tblQuicky 5 2 = some [some (2460/131), some (9410/131)] := by
  rw [knn_interpolation, eval_bw_quicky]
  norm_num [eval_loop_quicky, fgt0, fdiv]

theorem eval_bw_dup : bandwidth tblDupTime 4 1 = some 0 := by
  norm_num [bandwidth, tblDupTime, sortAsc, insertAsc]

theorem eval_knn_dup : knn_interpolation tblDupTime 4 1 = some [some 0] := by
  have hl : knnLoop tblDupTime.cols 4 0 = (some [none], none) := by
    norm_num [knnLoop, loopStepK, kerW, fadd, fsub, fmul, fdiv, tblDupTime]
  rw [knn_interpolation, eval_bw_dup]
  norm_num [hl, fgt0]
  rfl

theorem eval_knn_firstNear : knn_interpolation tblFirstNear 4 0 = some [some 9] := by
  have hb : bandwidth tblFirstNear 4 0 = some 1 := by
    norm_num [bandwidth, tblFirstNear, sortAsc, insertAsc]
  have hl : knnLoop tblFirstNear.cols 4 1 = (some [some (27/4)], some (3/4)) := by
    norm_num [knnLoop, loopStepK, kerW, fadd, fsub, fmul, fdiv, tblFirstNear]
  rw [knn_interpolation, hb]
  norm_num [hl, fgt0, fdiv]

theorem eval_bw_boundary : bandwidth tblBoundary 5 1 = some 2 := by
  norm_num [bandwidth, tblBoundary, sortAsc, insertAsc]

theorem eval_loop_boundary : knnLoop tblBoundary.cols 5 2 = (some [some 0], some 0) := by
  norm_num [knnLoop, loopStepK, kerW, fadd, fsub, fmul, fdiv, tblBoundary]

theorem eval_knn_boundary : knn_interpolation tblBoundary 5 1 = some [some 0] := by
  rw [knn_interpolation, eval_bw_boundary]
  norm_num [eval_loop_boundary, fgt0]
  rfl

theorem eval_bw_firstOnly : bandwidth tblFirstOnly 5 0 = some 95 := by
  norm_num [bandwidth, tblFirstOnly, sortAsc, insertAsc]

theorem eval_knn_firstOnly : knn_interpolation tblFirstOnly 5 0 = some [some 7] := by
  have hl : knnLoop tblFirstOnly.cols 5 95 = (some [some (21/4)], some (3/4)) := by
    norm_num [knnLoop, loopStepK, kerW, fadd, fsub, fmul, fdiv, tblFirstOnly]
  rw [knn_interpolation, eval_bw_firstOnly]
  norm_num [hl, fgt0, fdiv]

theorem eval_lookup_dup : tableLookup tblDupTime 4 = some [2] := by
  norm_num [tableLookup, tblDupTime, List.find?]

/- Helper lemmas: the sort used for the distance list. -/

theorem length_insertAsc (x : ℚ) : ∀ l : List ℚ, (insertAsc x l).length = l.length + 1
  | [] => rfl
  | y :: ys => by
    by_cases h : x ≤ y <;> simp [insertAsc, h, length_insertAsc x ys]

theorem length_sortAsc : ∀ l : List ℚ, (sortAsc l).length = l.length
  | [] => rfl
  | x :: xs => by simp [sortAsc, length_insertAsc, length_sortAsc xs]

theorem perm_insertAsc (x : ℚ) : ∀ l : List ℚ, (insertAsc x l).Perm (x :: l)
  | [] => List.Perm.refl _
  | y :: ys => by
    by_cases h : x ≤ y
    · simp [insertAsc, h]
    · simp only [insertAsc, if_neg h]
      exact ((perm_insertAsc x ys).cons y).trans (List.Perm.swap x y ys)

theorem perm_sortAsc : ∀ l : List ℚ, (sortAsc l).Perm l
  | [] => List.Perm.refl _
  | x :: xs => (perm_insertAsc x (sortAsc xs)).trans ((perm_sortAsc xs).cons x)

theorem sorted_insertAsc (x : ℚ) : ∀ l : List ℚ,
    l.Sorted (fun a b => a ≤ b) → (insertAsc x l).Sorted (fun a b => a ≤ b)
  | [], _ => List.sorted_singleton x
  | y :: ys, h => by
    rw [List.sorted_cons] at h
    by_cases hxy : x ≤ y
    · rw [insertAsc, if_pos hxy, List.sorted_cons]
      refine ⟨fun z hz => ?_, List.sorted_cons.mpr h⟩
      rcases List.mem_cons.mp hz with rfl | hz
      · exact hxy
      · exact hxy.trans (h.1 z hz)
    · rw [insertAsc, if_neg hxy, List.sorted_cons]
      refine ⟨fun z hz => ?_, sorted_insertAsc x ys h.2⟩
      rcases List.mem_cons.mp ((perm_insertAsc x ys).mem_iff.mp hz) with rfl | hz
      · exact le_of_not_le hxy
      · exact h.1 z hz

theorem sorted_sortAsc : ∀ l : List ℚ, (sortAsc l).Sorted (fun a b => a ≤ b)
  | [] => List.sorted_nil
  | x :: xs => sorted_insertAsc x (sortAsc xs) (sorted_sortAsc xs)

/- Helper lemmas: when the bandwidth lookup is in range. -/

theorem bandwidth_isSome_iff (T : ObsTable) (t : ℚ) (K : ℕ) :
    (bandwidth T t K).isSome = true ↔ K + 2 ≤ T.cols.length := by
  rw [bandwidth, Option.isSome_iff_ne_none, ne_eq, List.getElem?_eq_none_iff,
    length_sortAsc, List.length_map, List.length_drop, List.length_map]
  omega

/-- Claim C10: knn_interpolation removes the table's first column before
building the sorted distance list (so the lookup samples_dist[K] is
in-bounds only with at least K+2 columns, and a table with K+1 or fewer
columns raises an index error, modelled by none), while the weighting
loop still iterates over all columns: on tblFirstOnly the first column is
excluded from the bandwidth distances (b = 95, the distance 0 of the
first column does not appear) yet dominates the returned estimate. -/
theorem claim_C10 : (∀ (T : ObsTable) (t : ℚ) (K : ℕ),
      knn_interpolation T t K = none ↔ T.cols.length < K + 2) ∧
    bandwidth tblFirstOnly 5 0 = some 95 ∧
    knn_interpolation tblFirstOnly 5 0 = some [some 7] := by
  refine ⟨fun T t K => ?_, eval_bw_firstOnly, eval_knn_firstOnly⟩
  rw [knn_interpolation, Option.map_eq_none']
  rw [← Option.not_isSome_iff_eq_none, Bool.not_eq_true, ← Bool.not_eq_true,
    bandwidth_isSome_iff]
  omega

/-- Claim C2: the bandwidth is NOT taken from the distances to every
column: on the quicky.py table with query 5 and K = 2 the code computes
b = 10 (rank 2 of the distances from the popped list [3, 8, 15]), while
rank 2 of the ascending-sorted distances to all columns [0, 3, 8, 15]
is 5, as the claim and the spec's worked example require. -/
theorem claim_C2 :
    bandwidth tblQuicky 5 2 = some 10 ∧
    bandwidthAllColumns tblQuicky 5 2 = some 5 ∧ (10:ℚ) ≠ 5 :=
  ⟨eval_bw_quicky, eval_bwAll_quicky, by norm_num⟩

/-- Claim C3: a query equal to an existing time column is not returned
verbatim when the bandwidth degenerates: on the table with time columns
[9, 4, 4] (value 2 at both time-4 columns), query 4 and K = 1 give b = 0,
the 0/0 kernel weights are NaN, the NaN weight sum fails the > 0 guard
and the function returns the zero vector instead of the column value 2. -/
theorem claim_C3 :
    bandwidth tblDupTime 4 1 = some 0 ∧
    knn_interpolation tblDupTime 4 1 = some [some 0] ∧
    tableLookup tblDupTime 4 = some [2] ∧ some (0:ℚ) ≠ some (2:ℚ) :=
  ⟨eval_bw_dup, eval_knn_dup, eval_lookup_dup, by norm_num⟩

/-- Claim C4, counterexample: a non-positive K does not make the call
fail: with K = 0 and three columns, knn_interpolation returns a value
(the window average [9]) instead of failing with an InvalidInput
condition. -/
theorem claim_C4_counterexample :
    (knn_interpolation tblFirstNear 4 0).isSome = true ∧
    knn_interpolation tblFirstNear 4 0 = some [some 9] :=
  ⟨by rw [eval_knn_firstNear]; rfl, eval_knn_firstNear⟩

/-- Claim C4, amended: knn_interpolation performs no parameter
validation: every call on a table with at least K + 2 time columns
returns a value, whatever K (including K = 0) and the query are; calls
with fewer columns fail with an index error (claim C10's theorem),
not with a spec-named condition. -/
theorem claim_C4 (T : ObsTable) (t : ℚ) (K : ℕ)
    (h : K + 2 ≤ T.cols.length) : (knn_interpolation T t K).isSome = true := by
  obtain ⟨b, hb⟩ := Option.isSome_iff_exists.mp ((bandwidth_isSome_iff T t K).mpr h)
  rw [knn_interpolation, hb]
  rfl

/-- Claim C4, witness: the amended theorem applied to tblFirstNear with
K = 0. -/
theorem claim_C4_witness :
    0 + 2 ≤ tblFirstNear.cols.length ∧
    (knn_interpolation tblFirstNear 4 0).isSome = true :=
  ⟨by norm_num [tblFirstNear], claim_C4 tblFirstNear 4 0 (by norm_num [tblFirstNear])⟩

/- Helper lemmas: floating arithmetic facts. -/

theorem fadd_none_left (x : Fl) : fadd none x = none := rfl

theorem fadd_none_right (x : Fl) : fadd x none = none := by cases x <;> rfl

theorem kerW_eq_epan (t b s : ℚ) (hb : b ≠ 0) : kerW t b s = some (epan t b s) := by
  simp only [kerW, epan, fmul, fsub, fdiv, if_neg hb]
  congr 1
  ring

theorem kerW_zero_b (t s : ℚ) : kerW t 0 s = none := by
  simp [kerW, fdiv, fmul, fsub]

theorem zipWith_fadd_map_some : ∀ (a q : List ℚ),
    List.zipWith fadd (a.map some) (q.map some)
      = (List.zipWith (fun x y => x + y) a q).map some
  | [], _ => by simp
  | _ :: _, [] => by simp
  | x :: xs, y :: ys => by
    simp only [List.map_cons, List.zipWith_cons_cons, zipWith_fadd_map_some xs ys]
    rfl

/- Helper lemmas: the kernel loop simulated in rational arithmetic
when the bandwidth is nonzero. -/

theorem foldl_loopStepK_eq_qStep (t b : ℚ) (hb : b ≠ 0) :
    ∀ (cols : List (ℚ × List ℚ)) (a : Option (List ℚ)) (w : ℚ),
      cols.foldl (loopStepK t b) (a.map (fun l => l.map some), some w)
        = ((cols.foldl (qStep t b) (a, w)).1.map (fun l => l.map some),
           some ((cols.foldl (qStep t b) (a, w)).2))
  | [], a, w => rfl
  | c :: cs, a, w => by
    rw [List.foldl_cons, List.foldl_cons]
    have hmap : c.2.map (fun v => fmul (some (epan t b c.1)) (some v))
        = (c.2.map (fun v => epan t b c.1 * v)).map some := by
      simp [fmul, List.map_map, Function.comp]
    have hstep : loopStepK t b (a.map (fun l => l.map some), some w) c
        = ((qStep t b (a, w) c).1.map (fun l => l.map some),
           some ((qStep t b (a, w) c).2)) := by
      by_cases h : c.1 - b ≤ t ∧ t ≤ c.1 + b
      · cases a with
        | none =>
          rw [loopStepK, qStep, if_pos h, if_pos h, kerW_eq_epan t b c.1 hb]
          simp only [Option.map_none']
          rw [hmap]
          rfl
        | some a0 =>
          rw [loopStepK, qStep, if_pos h, if_pos h, kerW_eq_epan t b c.1 hb]
          simp only [Option.map_some']
          rw [hmap, zipWith_fadd_map_some]
          rfl
      · rw [loopStepK, qStep, if_neg h, if_neg h]
    rw [hstep]
    exact foldl_loopStepK_eq_qStep t b hb cs (qStep t b (a, w) c).1 (qStep t b (a, w) c).2

theorem knnLoop_eq_q (t b : ℚ) (hb : b ≠ 0) (cols : List (ℚ × List ℚ)) :
    knnLoop cols t b
      = ((cols.foldl (qStep t b) (none, 0)).1.map (fun l => l.map some),
         some ((cols.foldl (qStep t b) (none, 0)).2)) :=
  foldl_loopStepK_eq_qStep t b hb cols none 0

theorem sumWeights_cons (t b : ℚ) (c : ℚ × List ℚ) (cs : List (ℚ × List ℚ)) :
    sumWeights (c :: cs) t b
      = (if c.1 - b ≤ t ∧ t ≤ c.1 + b then epan t b c.1 else 0)
        + sumWeights cs t b := by
  simp only [sumWeights, includedCols, List.filter_cons]
  by_cases h : c.1 - b ≤ t ∧ t ≤ c.1 + b
  · rw [if_pos (decide_eq_true h), if_pos h, List.map_cons, List.sum_cons]
  · rw [if_neg (by simpa using h), if_neg h, zero_add]

theorem foldl_qStep_tw (t b : ℚ) : ∀ (cols : List (ℚ × List ℚ))
    (a : Option (List ℚ)) (w : ℚ),
    (cols.foldl (qStep t b) (a, w)).2 = w + sumWeights cols t b
  | [], a, w => by simp [sumWeights, includedCols]
  | c :: cs, a, w => by
    rw [List.foldl_cons, qStep]
    by_cases h : c.1 - b ≤ t ∧ t ≤ c.1 + b
    · rw [if_pos h, foldl_qStep_tw t b cs _ _, sumWeights_cons, if_pos h]
      dsimp only
      ring
    · rw [if_neg h, foldl_qStep_tw t b cs a w, sumWeights_cons, if_neg h]
      ring

/- Helper lemmas: the accumulated vector equals the per-feature
weighted sums. -/

theorem zipWith_add_replicate : ∀ (a : List ℚ) (n : ℕ), a.length = n →
    List.zipWith (fun x y => x + y) a (List.replicate n 0) = a
  | [], _, _ => by simp
  | x :: xs, n, h => by
    cases n with
    | zero => simp at h
    | succ m =>
      rw [List.replicate_succ, List.zipWith_cons_cons, add_zero,
        zipWith_add_replicate xs m (by simpa using h)]

theorem zipWith_add_assoc3 : ∀ (a x y : List ℚ),
    List.zipWith (fun p q => p + q) (List.zipWith (fun p q => p + q) a x) y
      = List.zipWith (fun p q => p + q) a (List.zipWith (fun p q => p + q) x y)
  | [], _, _ => by simp
  | _ :: _, [], _ => by simp
  | _ :: _, _ :: _, [] => by simp
  | p :: ps, q :: qs, r :: rs => by
    simp only [List.zipWith_cons_cons, zipWith_add_assoc3 ps qs rs, add_assoc]

theorem weightedVec_length (t b : ℚ) (n : ℕ) : ∀ cols : List (ℚ × List ℚ),
    (∀ c ∈ cols, c.2.length = n) → (weightedVec cols t b n).length = n
  | [], _ => by simp [weightedVec]
  | c :: cs, h => by
    have ih := weightedVec_length t b n cs (fun d hd => h d (List.mem_cons_of_mem c hd))
    have hc2 := h c (List.mem_cons_self c cs)
    by_cases hc : c.1 - b ≤ t ∧ t ≤ c.1 + b
    · simp only [weightedVec, if_pos hc, List.length_zipWith, List.length_map, ih, hc2,
        min_self]
    · simp only [weightedVec, if_neg hc, ih]

theorem foldl_qStep_vec_some (t b : ℚ) (n : ℕ) :
    ∀ (cols : List (ℚ × List ℚ)), (∀ c ∈ cols, c.2.length = n) →
    ∀ (a : List ℚ) (w : ℚ), a.length = n →
      (cols.foldl (qStep t b) (some a, w)).1
        = some (List.zipWith (fun x y => x + y) a (weightedVec cols t b n))
  | [], _, a, w, ha => by
    simp [weightedVec, zipWith_add_replicate a n ha]
  | c :: cs, h, a, w, ha => by
    have htail := fun d hd => h d (List.mem_cons_of_mem c hd)
    have hc2 := h c (List.mem_cons_self c cs)
    rw [List.foldl_cons, qStep]
    by_cases hc : c.1 - b ≤ t ∧ t ≤ c.1 + b
    · rw [if_pos hc]
      dsimp only
      rw [foldl_qStep_vec_some t b n cs htail _ _
        (by rw [List.length_zipWith, ha, List.length_map, hc2, min_self])]
      simp only [weightedVec, if_pos hc]
      rw [zipWith_add_assoc3]
    · rw [if_neg hc]
      rw [foldl_qStep_vec_some t b n cs htail a w ha]
      simp only [weightedVec, if_neg hc]

theorem foldl_qStep_vec_none (t b : ℚ) (n : ℕ) :
    ∀ (cols : List (ℚ × List ℚ)), (∀ c ∈ cols, c.2.length = n) → ∀ (w : ℚ),
      (cols.foldl (qStep t b) (none, w)).1
        = if includedCols cols t b = [] then none else some (weightedVec cols t b n)
  | [], _, w => by simp [includedCols]
  | c :: cs, h, w => by
    have htail := fun d hd => h d (List.mem_cons_of_mem c hd)
    have hc2 := h c (List.mem_cons_self c cs)
    rw [List.foldl_cons, qStep]
    by_cases hc : c.1 - b ≤ t ∧ t ≤ c.1 + b
    · rw [if_pos hc]
      dsimp only
      rw [foldl_qStep_vec_some t b n cs htail _ _ (by rw [List.length_map, hc2])]
      have hne : includedCols (c :: cs) t b ≠ [] := by
        simp only [includedCols, List.filter_cons, if_pos (decide_eq_true hc)]
        exact List.cons_ne_nil _ _
      rw [if_neg hne]
      simp only [weightedVec, if_pos hc]
    · rw [if_neg hc, foldl_qStep_vec_none t b n cs htail w]
      have hsame : includedCols (c :: cs) t b = includedCols cs t b := by
        simp only [includedCols, List.filter_cons]
        rw [if_neg (by rw [decide_eq_true_eq]; exact hc)]
      rw [hsame]
      by_cases hnil : includedCols cs t b = []
      · rw [if_pos hnil, if_pos hnil]
      · rw [if_neg hnil, if_neg hnil]
        simp only [weightedVec, if_neg hc]

/- Helper lemmas: the degenerate zero bandwidth makes the accumulated
weight NaN (or leaves it zero), so the guard fails. -/

theorem foldl_loopStepK_tw_none (t b : ℚ) :
    ∀ (cols : List (ℚ × List ℚ)) (a : Option (List Fl)),
      (cols.foldl (loopStepK t b) (a, none)).2 = none
  | [], _ => rfl
  | c :: cs, a => by
    rw [List.foldl_cons, loopStepK]
    by_cases h : c.1 - b ≤ t ∧ t ≤ c.1 + b
    · rw [if_pos h]
      dsimp only
      rw [fadd_none_left]
      exact foldl_loopStepK_tw_none t b cs _
    · rw [if_neg h]
      exact foldl_loopStepK_tw_none t b cs a

theorem foldl_loopStepK_tw_zero_b (t : ℚ) :
    ∀ (cols : List (ℚ × List ℚ)) (a : Option (List Fl)) (tw : Fl),
      (cols.foldl (loopStepK t 0) (a, tw)).2
        = if ∃ c ∈ cols, c.1 = t then none else tw
  | [], _, tw => by simp
  | c :: cs, a, tw => by
    rw [List.foldl_cons, loopStepK]
    by_cases hc : c.1 = t
    · have hcond : c.1 - 0 ≤ t ∧ t ≤ c.1 + 0 := by constructor <;> simp [hc]
      rw [if_pos hcond]
      dsimp only
      rw [kerW_zero_b, fadd_none_right, foldl_loopStepK_tw_none]
      rw [if_pos ⟨c, List.mem_cons_self c cs, hc⟩]
    · have hcond : ¬(c.1 - 0 ≤ t ∧ t ≤ c.1 + 0) := by
        intro hII
        exact hc (le_antisymm (by linarith [hII.1]) (by linarith [hII.2]))
      rw [if_neg hcond, foldl_loopStepK_tw_zero_b t cs a tw]
      by_cases hex : ∃ d ∈ cs, d.1 = t
      · have hex2 : ∃ d ∈ c :: cs, d.1 = t := by
          obtain ⟨d, hd, hdt⟩ := hex
          exact ⟨d, List.mem_cons_of_mem c hd, hdt⟩
        rw [if_pos hex, if_pos hex2]
      · have hex2 : ¬∃ d ∈ c :: cs, d.1 = t := by
          rintro ⟨d, hd, hdt⟩
          rcases List.mem_cons.mp hd with rfl | hd2
          · exact hc hdt
          · exact hex ⟨d, hd2, hdt⟩
        rw [if_neg hex, if_neg hex2]

theorem bzero_no_pos_weight (t : ℚ) (cols : List (ℚ × List ℚ)) (W : ℚ)
    (hW : (knnLoop cols t 0).2 = some W) (hpos : 0 < W) : False := by
  rw [knnLoop, foldl_loopStepK_tw_zero_b] at hW
  by_cases h : ∃ c ∈ cols, c.1 = t
  · rw [if_pos h] at hW
    exact Option.noConfusion hW
  · rw [if_neg h] at hW
    injection hW with hW
    rw [← hW] at hpos
    exact lt_irrefl 0 hpos

/- The central normalization lemma: a positive accumulated weight makes
knn_interpolation return the weight-normalized per-feature averages. -/

theorem knn_normalized (T : ObsTable) (t : ℚ) (K : ℕ) (b W : ℚ)
    (hb : bandwidth T t K = some b)
    (hW : (knnLoop T.cols t b).2 = some W) (hpos : 0 < W)
    (hlen : ∀ c ∈ T.cols, c.2.length = T.features) :
    W = sumWeights T.cols t b ∧
    knn_interpolation T t K
      = some ((weightedVec T.cols t b T.features).map
          (fun s => some (s / sumWeights T.cols t b))) := by
  have hbne : b ≠ 0 := by
    intro hzero
    subst hzero
    exact bzero_no_pos_weight t T.cols W hW hpos
  have hsim := knnLoop_eq_q t b hbne T.cols
  have h2 : (knnLoop T.cols t b).2 = some (sumWeights T.cols t b) := by
    rw [hsim]
    dsimp only
    rw [foldl_qStep_tw t b T.cols none 0, zero_add]
  have hWeq : W = sumWeights T.cols t b := by
    rw [h2] at hW
    exact (Option.some.injEq _ _ ▸ hW).symm ▸ rfl
  have hSpos : 0 < sumWeights T.cols t b := hWeq ▸ hpos
  have hinc : includedCols T.cols t b ≠ [] := by
    intro hnil
    rw [sumWeights, hnil] at hSpos
    simp at hSpos
  have h1 : (knnLoop T.cols t b).1
      = some ((weightedVec T.cols t b T.features).map some) := by
    rw [hsim]
    dsimp only
    rw [foldl_qStep_vec_none t b T.features T.cols hlen 0, if_neg hinc,
      Option.map_some']
  refine ⟨hWeq, ?_⟩
  rw [knn_interpolation, hb, Option.map_some']
  rw [h1]
  dsimp only
  rw [h2]
  have hgt : fgt0 (some (sumWeights T.cols t b)) = true := by
    simp [fgt0, hSpos]
  rw [hgt, if_pos rfl, List.map_map]
  refine congrArg some (List.map_congr_left ?_)
  intro s _
  simp only [Function.comp_apply, fdiv, if_neg (ne_of_gt hSpos)]

/-- Claim C1: for every observation table (with well-formed column
lengths), query time and K for which the bandwidth lookup succeeds,
whenever the accumulated kernel weight is some positive W, the estimate
equals, per feature, the accumulated weighted sum divided by the
accumulated weight sum over the included columns (a normalized weighted
average, not the raw weighted sum), and W is exactly that weight sum. -/
theorem claim_C1 (T : ObsTable) (t : ℚ) (K : ℕ) (b W : ℚ)
    (hb : bandwidth T t K = some b)
    (hW : (knnLoop T.cols t b).2 = some W) (hpos : 0 < W)
    (hlen : ∀ c ∈ T.cols, c.2.length = T.features) :
    W = sumWeights T.cols t b ∧
    knn_interpolation T t K
      = some ((weightedVec T.cols t b T.features).map
          (fun s => some (s / sumWeights T.cols t b))) :=
  knn_normalized T t K b W hb hW hpos hlen

/-- Claim C1, witness: the quicky.py table at query 5 with K = 2; the
accumulated weight is 393/200 and the estimate is the normalized average. -/
theorem claim_C1_witness :
    0 < (393/200 : ℚ) ∧
    ((393/200 : ℚ) = sumWeights tblQuicky.cols 5 10 ∧
      knn_interpolation tblQuicky 5 2
        = some ((weightedVec tblQuicky.cols 5 10 2).map
            (fun s => some (s / sumWeights tblQuicky.cols 5 10)))) :=
  ⟨by norm_num,
   claim_C1 tblQuicky 5 2 10 (393/200) eval_bw_quicky
     (by rw [eval_loop_quicky]) (by norm_num) (by norm_num [tblQuicky])⟩

/-- Claim C7: for every call whose bandwidth lookup succeeds (on a table
with well-formed column lengths), if the accumulated kernel weight is
exactly zero the result is the zero vector of length equal to the number
of features, and in every case the returned vector has that length and
contains no NaN entry (every entry is a some value). -/
theorem claim_C7 (T : ObsTable) (t : ℚ) (K : ℕ) (b : ℚ) (r : List Fl)
    (hb : bandwidth T t K = some b)
    (hlen : ∀ c ∈ T.cols, c.2.length = T.features)
    (hr : knn_interpolation T t K = some r) :
    ((knnLoop T.cols t b).2 = some 0 → r = List.replicate T.features (some 0)) ∧
    r.length = T.features ∧ ∀ x ∈ r, x.isSome = true := by
  rw [knn_interpolation, hb, Option.map_some'] at hr
  injection hr with hr
  cases hacc : (knnLoop T.cols t b).1 with
  | none =>
    rw [hacc] at hr
    dsimp only at hr
    subst hr
    refine ⟨fun _ => rfl, List.length_replicate _ _, ?_⟩
    intro x hx
    rw [List.eq_of_mem_replicate hx]
    rfl
  | some a =>
    rw [hacc] at hr
    dsimp only at hr
    cases hg : fgt0 (knnLoop T.cols t b).2 with
    | false =>
      rw [hg] at hr
      simp only [Bool.false_eq_true, if_false] at hr
      subst hr
      refine ⟨fun _ => rfl, List.length_replicate _ _, ?_⟩
      intro x hx
      rw [List.eq_of_mem_replicate hx]
      rfl
    | true =>
      rw [hg] at hr
      simp only [if_true] at hr
      obtain ⟨W, hW2, hWpos⟩ : ∃ W, (knnLoop T.cols t b).2 = some W ∧ 0 < W := by
        cases h2 : (knnLoop T.cols t b).2 with
        | none => rw [h2] at hg; exact absurd hg (by simp [fgt0])
        | some W =>
          rw [h2] at hg
          exact ⟨W, rfl, by simpa [fgt0] using hg⟩
      have hbne : b ≠ 0 := by
        intro hzero
        subst hzero
        exact bzero_no_pos_weight t T.cols W hW2 hWpos
      have hsim := knnLoop_eq_q t b hbne T.cols
      have hWsum : W = sumWeights T.cols t b := by
        have h2 : (knnLoop T.cols t b).2 = some (sumWeights T.cols t b) := by
          rw [hsim]
          dsimp only
          rw [foldl_qStep_tw t b T.cols none 0, zero_add]
        rw [h2] at hW2
        injection hW2 with hW2
        exact hW2.symm
      have hinc : includedCols T.cols t b ≠ [] := by
        intro hnil
        rw [hWsum, sumWeights, hnil] at hWpos
        simp at hWpos
      have h1 : (knnLoop T.cols t b).1
          = some ((weightedVec T.cols t b T.features).map some) := by
        rw [hsim]
        dsimp only
        rw [foldl_qStep_vec_none t b T.features T.cols hlen 0, if_neg hinc,
          Option.map_some']
      rw [hacc] at h1
      injection h1 with h1
      refine ⟨?_, ?_, ?_⟩
      · intro h0
        rw [hW2] at h0
        injection h0 with h0
        rw [h0] at hWpos
        exact absurd hWpos (lt_irrefl 0)
      · rw [← hr, List.length_map, h1, List.length_map,
          weightedVec_length t b T.features T.cols hlen]
      · intro x hx
        rw [← hr] at hx
        obtain ⟨y, hy, rfl⟩ := List.mem_map.mp hx
        rw [h1] at hy
        obtain ⟨q, _, rfl⟩ := List.mem_map.mp hy
        rw [hW2]
        simp [fdiv, ne_of_gt hWpos]

/-- Claim C7, witness: tblBoundaryB at query 5 with K = 1 has b = 2 and a
zero accumulated weight, and the returned vector is the zero vector of
length one with no NaN entry. -/
theorem claim_C7_witness :
    ((knnLoop tblBoundaryB.cols 5 2).2 = some 0 →
      [(some 0 : Fl)] = List.replicate tblBoundaryB.features (some 0)) ∧
    ([(some 0 : Fl)]).length = tblBoundaryB.features ∧
    ∀ x ∈ [(some 0 : Fl)], x.isSome = true :=
  claim_C7 tblBoundaryB 5 1 2 [some 0]
    (by norm_num [bandwidth, tblBoundaryB, sortAsc, insertAsc])
    (by norm_num [tblBoundaryB])
    (by
      have hb : bandwidth tblBoundaryB 5 1 = some 2 := by
        norm_num [bandwidth, tblBoundaryB, sortAsc, insertAsc]
      have hl : knnLoop tblBoundaryB.cols 5 2 = (some [some 0], some 0) := by
        norm_num [knnLoop, loopStepK, kerW, fadd, fsub, fmul, fdiv, tblBoundaryB]
      rw [knn_interpolation, hb]
      norm_num [hl, fgt0]
      rfl)

/- Helper lemmas: Epanechnikov weight bounds on the window. -/

theorem window_iff_abs (t b s : ℚ) : (s - b ≤ t ∧ t ≤ s + b) ↔ |t - s| ≤ b := by
  rw [abs_le]
  constructor
  · intro h
    constructor <;> linarith [h.1, h.2]
  · intro h
    constructor <;> linarith [h.1, h.2]

theorem epan_nonneg (t b s : ℚ) (hb : 0 < b) (h : |t - s| ≤ b) : 0 ≤ epan t b s := by
  have h2 : ((t - s)/b)^2 ≤ 1 := by
    rw [div_pow, div_le_one (by positivity)]
    calc (t - s)^2 = |t - s|^2 := (sq_abs _).symm
    _ ≤ b^2 := pow_le_pow_left₀ (abs_nonneg _) h 2
  rw [epan]
  nlinarith

theorem epan_pos (t b s : ℚ) (hb : 0 < b) (h : |t - s| < b) : 0 < epan t b s := by
  have h2 : ((t - s)/b)^2 < 1 := by
    rw [div_pow, div_lt_one (by positivity)]
    calc (t - s)^2 = |t - s|^2 := (sq_abs _).symm
    _ < b^2 := by
      apply pow_lt_pow_left₀ h (abs_nonneg _)
      norm_num
  rw [epan]
  nlinarith

theorem epan_eq_zero (t b s : ℚ) (hb : b ≠ 0) (h : |t - s| = b) : epan t b s = 0 := by
  have h2 : (t - s)^2 = b^2 := by
    rw [← sq_abs, h]
  rw [epan, div_pow, h2, div_self (pow_ne_zero 2 hb)]
  ring

theorem mem_includedCols_window (cols : List (ℚ × List ℚ)) (t b : ℚ)
    (c : ℚ × List ℚ) (hc : c ∈ includedCols cols t b) :
    c ∈ cols ∧ |t - c.1| ≤ b := by
  have h := List.mem_filter.mp hc
  exact ⟨h.1, (window_iff_abs t b c.1).mp (of_decide_eq_true h.2)⟩

theorem sumWeights_nonneg (cols : List (ℚ × List ℚ)) (t b : ℚ) (hb : 0 < b) :
    0 ≤ sumWeights cols t b := by
  apply List.sum_nonneg
  intro x hx
  obtain ⟨c, hc, rfl⟩ := List.mem_map.mp hx
  exact epan_nonneg t b c.1 hb (mem_includedCols_window cols t b c hc).2

theorem sumWeights_pos_iff (cols : List (ℚ × List ℚ)) (t b : ℚ) (hb : 0 < b) :
    0 < sumWeights cols t b ↔ ∃ c ∈ cols, |t - c.1| < b := by
  constructor
  · intro hpos
    by_contra hno
    push_neg at hno
    have hzero : sumWeights cols t b = 0 := by
      apply List.sum_eq_zero
      intro x hx
      obtain ⟨c, hc, rfl⟩ := List.mem_map.mp hx
      obtain ⟨hmem, habs⟩ := mem_includedCols_window cols t b c hc
      exact epan_eq_zero t b c.1 (ne_of_gt hb) (le_antisymm habs (hno c hmem))
    rw [hzero] at hpos
    exact lt_irrefl 0 hpos
  · rintro ⟨c, hc, hlt⟩
    have hmem : c ∈ includedCols cols t b :=
      List.mem_filter.mpr ⟨hc, decide_eq_true ((window_iff_abs t b c.1).mpr hlt.le)⟩
    have hmem2 : epan t b c.1 ∈ (includedCols cols t b).map (fun c => epan t b c.1) :=
      List.mem_map_of_mem _ hmem
    have hle := List.single_le_sum (fun x hx => by
      obtain ⟨d, hd, rfl⟩ := List.mem_map.mp hx
      exact epan_nonneg t b d.1 hb (mem_includedCols_window cols t b d hd).2)
      _ hmem2
    exact lt_of_lt_of_le (epan_pos t b c.1 hb hlt) hle

/- Helper lemmas: weighted sums stay inside any bounding interval. -/

theorem sum_mul_le_hi (hi : ℚ) : ∀ (L : List (ℚ × List ℚ)) (f g : ℚ × List ℚ → ℚ),
    (∀ c ∈ L, 0 ≤ f c) → (∀ c ∈ L, g c ≤ hi) →
    (L.map (fun c => f c * g c)).sum ≤ hi * (L.map f).sum
  | [], _, _, _, _ => by simp
  | c :: cs, f, g, h0, h1 => by
    simp only [List.map_cons, List.sum_cons, mul_add]
    have ih := sum_mul_le_hi hi cs f g (fun d hd => h0 d (List.mem_cons_of_mem c hd))
      (fun d hd => h1 d (List.mem_cons_of_mem c hd))
    have hc : f c * g c ≤ hi * f c := by
      rw [mul_comm hi (f c)]
      exact mul_le_mul_of_nonneg_left (h1 c (List.mem_cons_self c cs))
        (h0 c (List.mem_cons_self c cs))
    linarith

theorem lo_le_sum_mul (lo : ℚ) : ∀ (L : List (ℚ × List ℚ)) (f g : ℚ × List ℚ → ℚ),
    (∀ c ∈ L, 0 ≤ f c) → (∀ c ∈ L, lo ≤ g c) →
    lo * (L.map f).sum ≤ (L.map (fun c => f c * g c)).sum
  | [], _, _, _, _ => by simp
  | c :: cs, f, g, h0, h1 => by
    simp only [List.map_cons, List.sum_cons, mul_add]
    have ih := lo_le_sum_mul lo cs f g (fun d hd => h0 d (List.mem_cons_of_mem c hd))
      (fun d hd => h1 d (List.mem_cons_of_mem c hd))
    have hc : lo * f c ≤ f c * g c := by
      rw [mul_comm lo (f c)]
      exact mul_le_mul_of_nonneg_left (h1 c (List.mem_cons_self c cs))
        (h0 c (List.mem_cons_self c cs))
    linarith

/- Helper lemmas: reading one feature out of the weighted vector. -/

theorem getD_getElem? : ∀ (l : List ℚ) (j : ℕ), j < l.length →
    l[j]? = some (l.getD j 0)
  | [], j, h => by simp at h
  | x :: xs, 0, _ => by simp
  | x :: xs, j + 1, h => by
    simpa using getD_getElem? xs j (by simpa using h)

theorem zipWith_add_getElem? : ∀ (a bl : List ℚ) (j : ℕ) (x y : ℚ),
    a[j]? = some x → bl[j]? = some y →
    (List.zipWith (fun p q => p + q) a bl)[j]? = some (x + y)
  | [], _, j, _, _, hx, _ => by simp at hx
  | _ :: _, [], j, _, _, _, hy => by simp at hy
  | p :: ps, q :: qs, 0, x, y, hx, hy => by
    simp only [List.getElem?_cons_zero, Option.some.injEq] at hx hy
    simp [hx, hy]
  | p :: ps, q :: qs, j + 1, x, y, hx, hy => by
    simpa using zipWith_add_getElem? ps qs j x y (by simpa using hx) (by simpa using hy)

theorem wSumAt_cons (t b : ℚ) (j : ℕ) (c : ℚ × List ℚ) (cs : List (ℚ × List ℚ)) :
    wSumAt (c :: cs) t b j
      = (if c.1 - b ≤ t ∧ t ≤ c.1 + b then epan t b c.1 * c.2.getD j 0 else 0)
        + wSumAt cs t b j := by
  simp only [wSumAt, includedCols, List.filter_cons]
  by_cases h : c.1 - b ≤ t ∧ t ≤ c.1 + b
  · rw [if_pos (decide_eq_true h), if_pos h, List.map_cons, List.sum_cons]
  · rw [if_neg (by rw [decide_eq_true_eq]; exact h), if_neg h, zero_add]

theorem weightedVec_getElem (t b : ℚ) (n : ℕ) (j : ℕ) (hj : j < n) :
    ∀ (cols : List (ℚ × List ℚ)), (∀ c ∈ cols, c.2.length = n) →
      (weightedVec cols t b n)[j]? = some (wSumAt cols t b j)
  | [], _ => by
    have : wSumAt [] t b j = 0 := by simp [wSumAt, includedCols]
    rw [this]
    simp only [weightedVec]
    rw [List.getElem?_replicate, if_pos hj]
  | c :: cs, h => by
    have hlen := h c (List.mem_cons_self c cs)
    have ih := weightedVec_getElem t b n j hj cs
      (fun d hd => h d (List.mem_cons_of_mem c hd))
    by_cases hc : c.1 - b ≤ t ∧ t ≤ c.1 + b
    · rw [wSumAt_cons, if_pos hc]
      simp only [weightedVec, if_pos hc]
      have hx : (c.2.map (fun v => epan t b c.1 * v))[j]?
          = some (epan t b c.1 * c.2.getD j 0) := by
        rw [List.getElem?_map, getD_getElem? c.2 j (by rw [hlen]; exact hj)]
        rfl
      exact zipWith_add_getElem? _ _ j _ _ hx ih
    · rw [wSumAt_cons, if_neg hc, zero_add]
      simp only [weightedVec, if_neg hc]
      exact ih

/-- Claim C8, counterexample: b > 0 does not force a positive weight sum:
on tblBoundary with query 5 and K = 1 the bandwidth is 2 > 0, yet both
in-window columns sit exactly on the window boundary, the accumulated
weight is 0, and the estimate is the zero vector — outside the convex
hull {1} of the contributing feature values. -/
theorem claim_C8_counterexample :
    bandwidth tblBoundary 5 1 = some 2 ∧ (0:ℚ) < 2 ∧
    (knnLoop tblBoundary.cols 5 2).2 = some 0 ∧
    knn_interpolation tblBoundary 5 1 = some [some 0] :=
  ⟨eval_bw_boundary, by norm_num, by rw [eval_loop_boundary], eval_knn_boundary⟩

/-- Claim C8, amended: for every call with bandwidth b > 0 (on a table
with well-formed column lengths), the accumulated kernel weight equals
the sum of Epanechnikov weights over the in-window columns and is
nonnegative; it is strictly positive exactly when some column lies
strictly inside the window; and whenever it is positive, each feature of
the estimate lies within every interval containing that feature's values
over the in-window columns (in particular within their minimum and
maximum). -/
theorem claim_C8 (T : ObsTable) (t : ℚ) (K : ℕ) (b : ℚ)
    (hb : bandwidth T t K = some b) (hbpos : 0 < b)
    (hlen : ∀ c ∈ T.cols, c.2.length = T.features) :
    (knnLoop T.cols t b).2 = some (sumWeights T.cols t b) ∧
    0 ≤ sumWeights T.cols t b ∧
    (0 < sumWeights T.cols t b ↔ ∃ c ∈ T.cols, |t - c.1| < b) ∧
    (0 < sumWeights T.cols t b → ∀ j lo hi, j < T.features →
      (∀ c ∈ includedCols T.cols t b, lo ≤ c.2.getD j 0 ∧ c.2.getD j 0 ≤ hi) →
      ∃ r v, knn_interpolation T t K = some r ∧ r[j]? = some (some v) ∧
        lo ≤ v ∧ v ≤ hi) := by
  have hbne : b ≠ 0 := ne_of_gt hbpos
  have h2 : (knnLoop T.cols t b).2 = some (sumWeights T.cols t b) := by
    rw [knnLoop_eq_q t b hbne]
    dsimp only
    rw [foldl_qStep_tw t b T.cols none 0, zero_add]
  refine ⟨h2, sumWeights_nonneg T.cols t b hbpos,
    sumWeights_pos_iff T.cols t b hbpos, ?_⟩
  intro hpos j lo hi hj hbnd
  obtain ⟨hWeq, hknn⟩ := knn_normalized T t K b (sumWeights T.cols t b) hb h2 hpos hlen
  refine ⟨_, wSumAt T.cols t b j / sumWeights T.cols t b, hknn, ?_, ?_, ?_⟩
  · rw [List.getElem?_map, weightedVec_getElem t b T.features j hj T.cols hlen]
    rfl
  · rw [le_div_iff₀ hpos]
    have h := lo_le_sum_mul lo (includedCols T.cols t b)
      (fun c => epan t b c.1) (fun c => c.2.getD j 0)
      (fun c hc => epan_nonneg t b c.1 hbpos (mem_includedCols_window T.cols t b c hc).2)
      (fun c hc => (hbnd c hc).1)
    exact h
  · rw [div_le_iff₀ hpos]
    have h := sum_mul_le_hi hi (includedCols T.cols t b)
      (fun c => epan t b c.1) (fun c => c.2.getD j 0)
      (fun c hc => epan_nonneg t b c.1 hbpos (mem_includedCols_window T.cols t b c hc).2)
      (fun c hc => (hbnd c hc).2)
    exact h

/-- Claim C8, witness: the quicky.py table at query 5, K = 2: the weight
sum 393/200 is positive and feature 0's estimate lies within [10, 50],
the range of the in-window values of feature 0. -/
theorem claim_C8_witness :
    0 < sumWeights tblQuicky.cols 5 10 ∧
    ∃ r v, knn_interpolation tblQuicky 5 2 = some r ∧ r[0]? = some (some v) ∧
      (10:ℚ) ≤ v ∧ v ≤ 50 := by
  have h := claim_C8 tblQuicky 5 2 10 eval_bw_quicky (by norm_num)
    (by norm_num [tblQuicky])
  have hpos : 0 < sumWeights tblQuicky.cols 5 10 := by
    norm_num [sumWeights, includedCols, epan, tblQuicky, List.filter]
  refine ⟨hpos, h.2.2.2 hpos 0 10 50 (by norm_num [tblQuicky]) ?_⟩
  norm_num [includedCols, tblQuicky, List.filter]

/- Helper lemmas: Python min and max over the parsed time labels. -/

theorem listMin_le : ∀ (l : List ℚ) (x : ℚ), x ∈ l → listMin l ≤ x
  | [], x, hx => absurd hx (List.not_mem_nil x)
  | [y], x, hx => by
    rcases List.mem_singleton.mp hx with rfl
    exact le_refl _
  | y :: z :: zs, x, hx => by
    rcases List.mem_cons.mp hx with rfl | hx2
    · exact min_le_left _ _
    · exact le_trans (min_le_right _ _) (listMin_le (z :: zs) x hx2)

theorem le_listMax : ∀ (l : List ℚ) (x : ℚ), x ∈ l → x ≤ listMax l
  | [], x, hx => absurd hx (List.not_mem_nil x)
  | [y], x, hx => by
    rcases List.mem_singleton.mp hx with rfl
    exact le_refl _
  | y :: z :: zs, x, hx => by
    rcases List.mem_cons.mp hx with rfl | hx2
    · exact le_max_left _ _
    · exact le_trans (le_listMax (z :: zs) x hx2) (le_max_right _ _)

theorem listMin_le_listMax : ∀ (l : List ℚ), l ≠ [] → listMin l ≤ listMax l
  | [], h => absurd rfl h
  | x :: xs, _ =>
    le_trans (listMin_le (x :: xs) x (List.mem_cons_self x xs))
      (le_listMax (x :: xs) x (List.mem_cons_self x xs))

/-- Claim C5: for every nonempty list of parsed time coordinates and
positive step, the grid is the arithmetic sequence start, start + step,
start + 2*step, ... whose last element is the first value at or beyond
end = max(times): every earlier element is strictly below end, the last
is at least end, and it overshoots end by less than one step; in
particular for times [0, 3, 8, 15] with step 7 the grid is [0, 7, 14, 21]. -/
theorem claim_C5 : (∀ (times : List ℚ) (step : ℚ), times ≠ [] → 0 < step →
    ∃ N : ℕ,
      regular_grid times step
        = (List.range (N + 1)).map (fun k => listMin times + (k : ℚ) * step) ∧
      listMax times ≤ listMin times + (N : ℚ) * step ∧
      listMin times + (N : ℚ) * step < listMax times + step ∧
      ∀ k : ℕ, k < N → listMin times + (k : ℚ) * step < listMax times) ∧
    regular_grid [0, 3, 8, 15] 7 = [0, 7, 14, 21] := by
  constructor
  · intro times step hne hstep
    set m := listMin times with hm
    set M := listMax times with hM
    have hmM : m ≤ M := listMin_le_listMax times hne
    set x : ℚ := (M - m) / step with hx
    have hx0 : 0 ≤ x := div_nonneg (by linarith) (le_of_lt hstep)
    have hz0 : 0 ≤ ⌈x⌉ := Int.ceil_nonneg hx0
    refine ⟨⌈x⌉.toNat, ?_, ?_, ?_, ?_⟩
    · rw [regular_grid, arange]
      have harg : (M + step - m) / step = x + 1 := by
        rw [show M + step - m = (M - m) + step by ring, add_div,
          div_self (ne_of_gt hstep), hx]
      rw [harg, Int.ceil_add_one]
      have htn : (⌈x⌉ + 1).toNat = ⌈x⌉.toNat + 1 := by omega
      rw [htn]
    · have h1 : x ≤ (⌈x⌉.toNat : ℚ) := by
        calc x ≤ (⌈x⌉ : ℚ) := Int.le_ceil x
        _ = ((⌈x⌉.toNat : ℤ) : ℚ) := by rw [Int.toNat_of_nonneg hz0]
        _ = (⌈x⌉.toNat : ℚ) := by push_cast; rfl
      have h2 : x * step ≤ (⌈x⌉.toNat : ℚ) * step :=
        mul_le_mul_of_nonneg_right h1 (le_of_lt hstep)
      rw [hx, div_mul_cancel₀ _ (ne_of_gt hstep)] at h2
      linarith
    · have h1 : (⌈x⌉.toNat : ℚ) < x + 1 := by
        calc (⌈x⌉.toNat : ℚ) = ((⌈x⌉.toNat : ℤ) : ℚ) := by push_cast; rfl
        _ = (⌈x⌉ : ℚ) := by rw [Int.toNat_of_nonneg hz0]
        _ < x + 1 := Int.ceil_lt_add_one x
      have h2 : (⌈x⌉.toNat : ℚ) * step < (x + 1) * step :=
        mul_lt_mul_of_pos_right h1 hstep
      rw [add_mul, one_mul, hx, div_mul_cancel₀ _ (ne_of_gt hstep)] at h2
      linarith
    · intro k hk
      have h1 : (⌈x⌉.toNat : ℚ) < x + 1 := by
        calc (⌈x⌉.toNat : ℚ) = ((⌈x⌉.toNat : ℤ) : ℚ) := by push_cast; rfl
        _ = (⌈x⌉ : ℚ) := by rw [Int.toNat_of_nonneg hz0]
        _ < x + 1 := Int.ceil_lt_add_one x
      have hk2 : (k : ℚ) + 1 ≤ (⌈x⌉.toNat : ℚ) := by
        have : (k + 1 : ℕ) ≤ ⌈x⌉.toNat := hk
        calc (k : ℚ) + 1 = ((k + 1 : ℕ) : ℚ) := by push_cast; ring
        _ ≤ (⌈x⌉.toNat : ℚ) := by exact_mod_cast this
      have hkx : (k : ℚ) < x := by linarith
      have h2 : (k : ℚ) * step < x * step := mul_lt_mul_of_pos_right hkx hstep
      rw [hx, div_mul_cancel₀ _ (ne_of_gt hstep)] at h2
      linarith
  · have h2 : (⌈((15:ℚ) + 7 - 0)/7⌉).toNat = 4 := by
      have h : ⌈((15:ℚ) + 7 - 0)/7⌉ = 4 := by norm_num [Int.ceil_eq_iff]
      rw [h]
      rfl
    norm_num [regular_grid, arange, listMin, listMax]
    norm_num at h2
    rw [h2]
    norm_num [List.range_succ]

/-- Claim C5, witness: the universal statement applied to the times
[0, 3, 8, 15] with step 7. -/
theorem claim_C5_witness :
    ∃ N : ℕ,
      regular_grid [0, 3, 8, 15] 7
        = (List.range (N + 1)).map (fun k => listMin [0, 3, 8, 15] + (k : ℚ) * 7) ∧
      listMax [0, 3, 8, 15] ≤ listMin [0, 3, 8, 15] + (N : ℚ) * 7 ∧
      listMin [0, 3, 8, 15] + (N : ℚ) * 7 < listMax [0, 3, 8, 15] + 7 ∧
      ∀ k : ℕ, k < N → listMin [0, 3, 8, 15] + (k : ℚ) * 7 < listMax [0, 3, 8, 15] :=
  claim_C5.1 [0, 3, 8, 15] 7 (by simp) (by norm_num)

/- Helper lemmas: the orchestrator loop in map form. -/

theorem foldl_regularizeStep (T : ObsTable) (K : ℕ) :
    ∀ (g : List ℚ) (acc : List (ℚ × Option (List Fl))) (k : ℕ),
      g.foldl (regularizeStep T K) (acc, k)
        = (acc ++ g.map (fun t => (t, pointCol T K t)),
           k + (g.filter (fun t =>
             ((T.cols.map Prod.fst).find? (fun ot => iscloseB ot t)).isNone)).length)
  | [], acc, k => by simp
  | t :: g', acc, k => by
    rw [List.foldl_cons]
    cases hf : (T.cols.map Prod.fst).find? (fun ot => iscloseB ot t) with
    | some m =>
      have hstep : regularizeStep T K (acc, k) t
          = (acc ++ [(t, (tableLookup T m).map (fun vs => vs.map some))], k) := by
        rw [regularizeStep, hf]
      have hpt : pointCol T K t = (tableLookup T m).map (fun vs => vs.map some) := by
        rw [pointCol, hf]
      rw [hstep, foldl_regularizeStep T K g' _ _, List.map_cons, List.filter_cons, hpt]
      rw [if_neg (by rw [hf]; simp), List.append_assoc, List.singleton_append]
    | none =>
      have hstep : regularizeStep T K (acc, k) t
          = (acc ++ [(t, knn_interpolation T t K)], k + 1) := by
        rw [regularizeStep, hf]
      have hpt : pointCol T K t = knn_interpolation T t K := by
        rw [pointCol, hf]
      rw [hstep, foldl_regularizeStep T K g' _ _, List.map_cons, List.filter_cons, hpt]
      rw [if_pos (by rw [hf]; rfl), List.append_assoc, List.singleton_append,
        List.length_cons]
      refine congrArg _ ?_
      omega

theorem regularize_eq (T : ObsTable) (step : ℚ) (K : ℕ) (h : T.cols ≠ []) :
    regularize T step K
      = some ((regular_grid (T.cols.map Prod.fst) step).map
            (fun t => (t, pointCol T K t)),
          ((regular_grid (T.cols.map Prod.fst) step).filter (fun t =>
            ((T.cols.map Prod.fst).find? (fun ot => iscloseB ot t)).isNone)).length) := by
  obtain ⟨c, cs, hc⟩ := List.exists_cons_of_ne_nil h
  simp only [regularize, hc]
  rw [foldl_regularizeStep T K _ [] 0]
  rw [List.nil_append, Nat.zero_add, hc]

/-- Claim C6: for every nonempty table, the orchestrator's output has one
column per grid point: where some original time coordinate is np.isclose
to the grid point, the first such original column's values are copied
verbatim (pointCol takes the lookup branch, no kernel invocation);
otherwise the column is knn_interpolation's estimate; and the kernel
invocation counter equals the number of grid points with no close
original time. -/
theorem claim_C6 (T : ObsTable) (step : ℚ) (K : ℕ) (h : T.cols ≠ []) :
    regularize T step K
      = some ((regular_grid (T.cols.map Prod.fst) step).map
            (fun t => (t, pointCol T K t)),
          ((regular_grid (T.cols.map Prod.fst) step).filter (fun t =>
            ((T.cols.map Prod.fst).find? (fun ot => iscloseB ot t)).isNone)).length) :=
  regularize_eq T step K h

/-- Claim C6, witness: the orchestrator output on the quicky.py table
with step 7 and K = 2. -/
theorem claim_C6_witness :
    regularize tblQuicky 7 2
      = some ((regular_grid (tblQuicky.cols.map Prod.fst) 7).map
            (fun t => (t, pointCol tblQuicky 2 t)),
          ((regular_grid (tblQuicky.cols.map Prod.fst) 7).filter (fun t =>
            ((tblQuicky.cols.map Prod.fst).find? (fun ot => iscloseB ot t)).isNone)).length) :=
  claim_C6 tblQuicky 7 2 (by simp [tblQuicky])

/-- Claim C9: for every nonempty table whose grid is fully covered by
np.isclose matches with original time coordinates, the orchestrator
invokes the kernel zero times and every output column is a verbatim copy
of some original column's values. -/
theorem claim_C9 (T : ObsTable) (step : ℚ) (K : ℕ) (h : T.cols ≠ [])
    (hcover : ∀ t ∈ regular_grid (T.cols.map Prod.fst) step,
      ∃ ot ∈ T.cols.map Prod.fst, iscloseB ot t = true) :
    ∃ out, regularize T step K = some out ∧ out.2 = 0 ∧
      ∀ p ∈ out.1, ∃ c ∈ T.cols, p.2 = some (c.2.map some) := by
  rw [regularize_eq T step K h]
  refine ⟨_, rfl, ?_, ?_⟩
  · dsimp only
    rw [List.length_eq_zero, List.filter_eq_nil_iff]
    intro t ht
    obtain ⟨ot, hot, hclose⟩ := hcover t ht
    have hsome : ((T.cols.map Prod.fst).find? (fun ot => iscloseB ot t)).isSome = true := by
      rw [List.find?_isSome]
      exact ⟨ot, hot, hclose⟩
    intro hnone
    rw [Option.isNone_iff_eq_none] at hnone
    rw [hnone] at hsome
    exact Bool.noConfusion hsome
  · intro p hp
    dsimp only at hp
    obtain ⟨t, ht, rfl⟩ := List.mem_map.mp hp
    obtain ⟨ot, hot, hclose⟩ := hcover t ht
    have hsome2 : ((T.cols.map Prod.fst).find? (fun ot => iscloseB ot t)).isSome = true := by
      rw [List.find?_isSome]
      exact ⟨ot, hot, hclose⟩
    obtain ⟨m, hm⟩ := Option.isSome_iff_exists.mp hsome2
    have hmmem : m ∈ T.cols.map Prod.fst := List.mem_of_find?_eq_some hm
    obtain ⟨c, hcmem, hc1⟩ := List.mem_map.mp hmmem
    have hsome3 : (T.cols.find? (fun c => decide (c.1 = m))).isSome = true := by
      rw [List.find?_isSome]
      exact ⟨c, hcmem, decide_eq_true hc1⟩
    obtain ⟨c', hc'⟩ := Option.isSome_iff_exists.mp hsome3
    refine ⟨c', List.mem_of_find?_eq_some hc', ?_⟩
    show pointCol T K t = some (c'.2.map some)
    rw [pointCol, hm]
    show (tableLookup T m).map (fun vs => vs.map some) = some (c'.2.map some)
    rw [tableLookup, hc']
    rfl

/-- Claim C9, witness: tblOnGrid with step 7 is already on the grid
[0, 7, 14]; the kernel is never invoked and every output column is an
original column. -/
theorem claim_C9_witness :
    ∃ out, regularize tblOnGrid 7 5 = some out ∧ out.2 = 0 ∧
      ∀ p ∈ out.1, ∃ c ∈ tblOnGrid.cols, p.2 = some (c.2.map some) := by
  apply claim_C9 tblOnGrid 7 5 (by simp [tblOnGrid])
  have hg : regular_grid (tblOnGrid.cols.map Prod.fst) 7 = [0, 7, 14] := by
    have h2 : (⌈((14:ℚ) + 7 - 0)/7⌉).toNat = 3 := by
      have hcl : ⌈((14:ℚ) + 7 - 0)/7⌉ = 3 := by norm_num [Int.ceil_eq_iff]
      rw [hcl]
      rfl
    norm_num [regular_grid, arange, listMin, listMax, tblOnGrid]
    norm_num at h2
    rw [h2]
    norm_num [List.range_succ]
  have hself : ∀ q : ℚ, iscloseB q q = true := by
    intro q
    simp only [iscloseB, sub_self, abs_zero, decide_eq_true_eq]
    positivity
  rw [hg]
  intro t ht
  have hmem : (0:ℚ) ∈ tblOnGrid.cols.map Prod.fst ∧
      (7:ℚ) ∈ tblOnGrid.cols.map Prod.fst ∧
      (14:ℚ) ∈ tblOnGrid.cols.map Prod.fst := by
    refine ⟨?_, ?_, ?_⟩ <;> simp [tblOnGrid]
  rcases List.mem_cons.mp ht with rfl | ht2
  · exact ⟨0, hmem.1, hself 0⟩
  rcases List.mem_cons.mp ht2 with rfl | ht3
  · exact ⟨7, hmem.2.1, hself 7⟩
  rcases List.mem_cons.mp ht3 with rfl | ht4
  · exact ⟨14, hmem.2.2, hself 14⟩
  · exact absurd ht4 (List.not_mem_nil t)
